import Mathlib

/-!
Shallow embedding of `sofia/sigma_cube.py` (function `sigma_scale`).

Cube voxels are modelled by the type `Val`, an exact model of the IEEE
floating-point values that actually occur in the program: finite values
(as exact rationals), NaN, and the two infinities.  The external noise
estimator `GetRMS` (from `sofia/functions.py`, outside this development's
scope) is a parameter: a function from the row-major list of values of the
measured region to a scalar `Val`.  All theorems quantify over it or fix a
concrete instance, so nothing depends on its internals.

The Python code mutates `cube` in place and returns it; the embedding is
pure and returns the transformed cube.  `sys.exit(1)` after the edge-size
check and the `NameError` raised by reading the unassigned local variable
`rms` in the X-axis loop are modelled by the `Except.error` branch, with
distinct messages.  Integer arithmetic follows Python 2 semantics
(`/` on non-negative integers is floor division, matching `Nat` division;
`max(0, a - b)` matches truncated `Nat` subtraction).
-/

/-- A floating-point value as it occurs in the program: an exact finite
rational, NaN, or an infinity. -/
inductive Val where
  | fin : ℚ → Val
  | nan : Val
  | inf : Val
  | ninf : Val
deriving DecidableEq, Repr

/-- Exact rational division, written with `Rat.divInt` so that it reduces
in the kernel; `ratDiv_eq_div` identifies it with ordinary division. -/
def ratDiv (a b : ℚ) : ℚ := Rat.divInt (a.num * (b.den : ℤ)) ((a.den : ℤ) * b.num)

/-- IEEE-754 division on `Val` (restricted to the cases the program can
produce): division by a finite zero yields NaN or a signed infinity, NaN
propagates, and infinities divide as in IEEE-754. -/
def valDiv : Val → Val → Val
  | Val.nan, _ => Val.nan
  | _, Val.nan => Val.nan
  | Val.fin a, Val.fin b =>
      if b = 0 then
        (if a = 0 then Val.nan else if 0 < a then Val.inf else Val.ninf)
      else Val.fin (ratDiv a b)
  | Val.fin _, Val.inf => Val.fin 0
  | Val.fin _, Val.ninf => Val.fin 0
  | Val.inf, Val.fin b => if 0 ≤ b then Val.inf else Val.ninf
  | Val.ninf, Val.fin b => if 0 ≤ b then Val.ninf else Val.inf
  | Val.inf, Val.inf => Val.nan
  | Val.inf, Val.ninf => Val.nan
  | Val.ninf, Val.inf => Val.nan
  | Val.ninf, Val.ninf => Val.nan

/-- `np.isnan` on a single value. -/
def valIsNaN : Val → Bool
  | Val.nan => true
  | _ => false

/-- The Python comparison `rms > 0` (false on NaN, true on `+inf`). -/
def valGtZero : Val → Bool
  | Val.fin q => decide (0 < q)
  | Val.inf => true
  | _ => false

/-- A 3-D data cube: its `np.shape` and its voxel values.  Values outside
the bounds are irrelevant to every statement below. -/
structure Cube where
  d0 : ℕ
  d1 : ℕ
  d2 : ℕ
  data : ℕ → ℕ → ℕ → Val

/-- Row-major list of the values of the sub-volume
`cube[z1:z2, y1:y2, x1:x2]` (half-open numpy slices). -/
def regionVals (d : ℕ → ℕ → ℕ → Val) (z1 z2 y1 y2 x1 x2 : ℕ) : List Val :=
  (List.range (z2 - z1)).flatMap (fun i =>
    (List.range (y2 - y1)).flatMap (fun j =>
      (List.range (x2 - x1)).map (fun k => d (z1 + i) (y1 + j) (x1 + k))))

/-- `np.all(np.isnan(region))` on the flattened region. -/
def allNaN (l : List Val) : Bool := l.all valIsNaN

/-- Lines 33-40 of the source: each size is clamped to a minimum of 2 and
then rounded up to the nearest even integer.  The second line of the
source reads `windowSpatial` (not `windowSpectral`), which is replicated
here exactly; the result order is (windowSpatial, windowSpectral,
gridSpatial, gridSpectral). -/
def normalizedSizes (windowSpatial windowSpectral gridSpatial gridSpectral : ℕ) :
    ℕ × ℕ × ℕ × ℕ :=
  let windowSpatial := max windowSpatial 2
  let windowSpectral := max windowSpatial 2
  let gridSpatial := max gridSpatial 2
  let gridSpectral := max gridSpectral 2
  (windowSpatial + windowSpatial % 2, windowSpectral + windowSpectral % 2,
   gridSpatial + gridSpatial % 2, gridSpectral + gridSpectral % 2)

/-- One iteration of the `scaleZ` loop: if the valid sub-plane
`cube[i, y1:y2, x1:x2]` is not entirely NaN, measure `rms` on it and, when
`rms > 0`, divide the whole plane `cube[i, :, :]` by it.  The second
component is the current value of the Python local variable `rms`. -/
def stepZ (GetRMS : List Val → Val) (y1 y2 x1 x2 : ℕ)
    (acc : (ℕ → ℕ → ℕ → Val) × Option Val) (i : ℕ) :
    (ℕ → ℕ → ℕ → Val) × Option Val :=
  if allNaN (regionVals acc.1 i (i + 1) y1 y2 x1 x2) then acc
  else
    let rms := GetRMS (regionVals acc.1 i (i + 1) y1 y2 x1 x2)
    ((if valGtZero rms then
        fun z y x => if z = i then valDiv (acc.1 z y x) rms else acc.1 z y x
      else acc.1), some rms)

/-- The `scaleZ` loop over all plane indices `range(dimensions[0])`. -/
def passZ (GetRMS : List Val → Val) (d0 y1 y2 x1 x2 : ℕ)
    (g : (ℕ → ℕ → ℕ → Val) × Option Val) : (ℕ → ℕ → ℕ → Val) × Option Val :=
  (List.range d0).foldl (stepZ GetRMS y1 y2 x1 x2) g

/-- One iteration of the `scaleY` loop (measures `cube[z1:z2, i, x1:x2]`,
divides `cube[:, i, :]`). -/
def stepY (GetRMS : List Val → Val) (z1 z2 x1 x2 : ℕ)
    (acc : (ℕ → ℕ → ℕ → Val) × Option Val) (i : ℕ) :
    (ℕ → ℕ → ℕ → Val) × Option Val :=
  if allNaN (regionVals acc.1 z1 z2 i (i + 1) x1 x2) then acc
  else
    let rms := GetRMS (regionVals acc.1 z1 z2 i (i + 1) x1 x2)
    ((if valGtZero rms then
        fun z y x => if y = i then valDiv (acc.1 z y x) rms else acc.1 z y x
      else acc.1), some rms)

/-- The `scaleY` loop over all plane indices `range(dimensions[1])`. -/
def passY (GetRMS : List Val → Val) (d1 z1 z2 x1 x2 : ℕ)
    (g : (ℕ → ℕ → ℕ → Val) × Option Val) : (ℕ → ℕ → ℕ → Val) × Option Val :=
  (List.range d1).foldl (stepY GetRMS z1 z2 x1 x2) g

/-- The `scaleX` loop.  Unlike the Z and Y loops, in the source the guard
`if rms > 0` sits OUTSIDE the all-NaN check, so it runs on every
iteration; when the plane is all NaN it reads the previous value of `rms`,
and if `rms` was never assigned Python raises a `NameError`, modelled by
the `Except.error` branch. -/
def passXgo (GetRMS : List Val → Val) (z1 z2 y1 y2 : ℕ) :
    List ℕ → (ℕ → ℕ → ℕ → Val) → Option Val →
    Except String ((ℕ → ℕ → ℕ → Val) × Option Val)
  | [], d, st => Except.ok (d, st)
  | i :: rest, d, st =>
    let st1 : Option Val :=
      if allNaN (regionVals d z1 z2 y1 y2 i (i + 1)) then st
      else some (GetRMS (regionVals d z1 z2 y1 y2 i (i + 1)))
    match st1 with
    | none => Except.error "NameError: name rms is not defined"
    | some rms =>
        passXgo GetRMS z1 z2 y1 y2 rest
          (if valGtZero rms then
            fun z y x => if x = i then valDiv (d z y x) rms else d z y x
          else d) (some rms)

/-- `int(math.ceil(float(a) / float(b)))` for non-negative `a` and
positive `b`. -/
def ceilDiv (a b : ℕ) : ℕ := (a + b - 1) / b

/-- `np.arange(start, stop, step)` over the naturals. -/
def arange (start stop step : ℕ) : List ℕ :=
  (List.range (ceilDiv (stop - start) step)).map (fun k => start + k * step)

/-- The centering offset of the local-method grid on one axis:
`(dim - grid * (ceil(dim / grid) - 1)) / 2` (Python 2 floor division). -/
def gridStart (dim grid : ℕ) : ℕ := (dim - grid * (ceilDiv dim grid - 1)) / 2

/-- Local-method grid points on one axis:
`np.arange(gridStart, dim, grid)`. -/
def gridPointsAx (dim grid : ℕ) : List ℕ := arange (gridStart dim grid) dim grid

/-- A six-tuple of region bounds `(zlo, zhi, ylo, yhi, xlo, xhi)` as
appended to `gridList` / `windowList`. -/
structure Reg where
  zlo : ℕ
  zhi : ℕ
  ylo : ℕ
  yhi : ℕ
  xlo : ℕ
  xhi : ℕ
deriving DecidableEq, Repr

/-- `(max(0, z - rz), min(d0, z + rz), ..., min(d2, x + rx))` for a grid
point `(z, y, x)` and per-axis radii `(rz, ry, rx)`. -/
def mkReg (d0 d1 d2 rz ry rx z y x : ℕ) : Reg :=
  ⟨z - rz, min d0 (z + rz), y - ry, min d1 (y + ry), x - rx, min d2 (x + rx)⟩

/-- The list `gridList` of grid-cell target regions, built over the three
axes of grid points with the halved grid sizes as radii. -/
def gridList (d0 d1 d2 gSpat gSpec : ℕ) : List Reg :=
  (gridPointsAx d0 gSpec).flatMap (fun z =>
    (gridPointsAx d1 gSpat).flatMap (fun y =>
      (gridPointsAx d2 gSpat).map (fun x =>
        mkReg d0 d1 d2 (gSpec / 2) (gSpat / 2) (gSpat / 2) z y x)))

/-- The list `windowList` of noise-measurement windows: same grid points,
window radii (the window sizes were already halved near the top of
`sigma_scale`). -/
def windowList (d0 d1 d2 wSpatR wSpecR gSpat gSpec : ℕ) : List Reg :=
  (gridPointsAx d0 gSpec).flatMap (fun z =>
    (gridPointsAx d1 gSpat).flatMap (fun y =>
      (gridPointsAx d2 gSpat).map (fun x =>
        mkReg d0 d1 d2 wSpecR wSpatR wSpatR z y x)))

/-- The values of a `Reg`-shaped sub-volume of `d`. -/
def regValsR (d : ℕ → ℕ → ℕ → Val) (r : Reg) : List Val :=
  regionVals d r.zlo r.zhi r.ylo r.yhi r.xlo r.xhi

/-- Membership of voxel `(z, y, x)` in region `r`. -/
def inReg (r : Reg) (z y x : ℕ) : Bool :=
  decide (r.zlo ≤ z) && decide (z < r.zhi) && decide (r.ylo ≤ y) &&
  decide (y < r.yhi) && decide (r.xlo ≤ x) && decide (x < r.xhi)

/-- Assignment `rms_cube[grid] = v` of a scalar to a whole sub-volume. -/
def setReg (m : ℕ → ℕ → ℕ → Val) (r : Reg) (v : Val) : ℕ → ℕ → ℕ → Val :=
  fun z y x => if inReg r z y x then v else m z y x

/-- The local-method loop over `zip(gridList, windowList)`: starting from
an all-zero noise cube, fill each grid cell with the noise measured on its
window unless the window is entirely NaN. -/
def localRms (GetRMS : List Val → Val) (d : ℕ → ℕ → ℕ → Val)
    (pairs : List (Reg × Reg)) : ℕ → ℕ → ℕ → Val :=
  pairs.foldl
    (fun m p =>
      if allNaN (regValsR d p.2) then m
      else setReg m p.1 (GetRMS (regValsR d p.2)))
    (fun _ _ _ => Val.fin 0)

/-- The message of the fatal edge-size check (`sys.stderr` line followed
by `sys.exit(1)`). -/
def edgeErrMsg : String := "ERROR: Edge size exceeds cube size for at least one axis."

/-- The embedding of `sigma_scale` from `sofia/sigma_cube.py`.  The
`statistic` and `fluxRange` arguments are absorbed into the estimator
parameter `GetRMS`; everything else follows the source line by line. -/
def sigma_scale (GetRMS : List Val → Val) (cube : Cube)
    (scaleX scaleY scaleZ : Bool) (edgeX edgeY edgeZ : ℕ) (method : String)
    (windowSpatial windowSpectral gridSpatial gridSpectral : ℕ) :
    Except String Cube :=
  let n := normalizedSizes windowSpatial windowSpectral gridSpatial gridSpectral
  let wSpatR := n.1 / 2
  let wSpecR := n.2.1 / 2
  let gSpat := n.2.2.1
  let gSpec := n.2.2.2
  let z1 := edgeZ
  let z2 := cube.d0 - edgeZ
  let y1 := edgeY
  let y2 := cube.d1 - edgeY
  let x1 := edgeX
  let x2 := cube.d2 - edgeX
  if z1 ≥ z2 ∨ y1 ≥ y2 ∨ x1 ≥ x2 then Except.error edgeErrMsg
  else if method = "local" then
    let pairs := (gridList cube.d0 cube.d1 cube.d2 gSpat gSpec).zip
      (windowList cube.d0 cube.d1 cube.d2 wSpatR wSpecR gSpat gSpec)
    let rms_cube := localRms GetRMS cube.data pairs
    Except.ok ⟨cube.d0, cube.d1, cube.d2,
      fun z y x => valDiv (cube.data z y x) (rms_cube z y x)⟩
  else
    let p1 := if scaleZ then passZ GetRMS cube.d0 y1 y2 x1 x2 (cube.data, none)
              else (cube.data, none)
    let p2 := if scaleY then passY GetRMS cube.d1 z1 z2 x1 x2 p1 else p1
    if scaleX then
      match passXgo GetRMS z1 z2 y1 y2 (List.range cube.d2) p2.1 p2.2 with
      | Except.error e => Except.error e
      | Except.ok p3 => Except.ok ⟨cube.d0, cube.d1, cube.d2, p3.1⟩
    else Except.ok ⟨cube.d0, cube.d1, cube.d2, p2.1⟩

/-- Observation of a `sigma_scale` result at one voxel: `some` value on
success, `none` on a fatal error. -/
def outData (r : Except String Cube) (z y x : ℕ) : Option Val :=
  match r with
  | Except.ok c => some (c.data z y x)
  | Except.error _ => none

/-- Like `outData`, but for the X pass alone. -/
def passXfstAt (G : List Val → Val) (z1 z2 y1 y2 d2 : ℕ) (d : ℕ → ℕ → ℕ → Val)
    (st : Option Val) (z y x : ℕ) : Option Val :=
  match passXgo G z1 z2 y1 y2 (List.range d2) d st with
  | Except.ok res => some (res.1 z y x)
  | Except.error _ => none

/-- Two successive applications of `sigma_scale` with only `scaleZ`
enabled (global method), used to exercise the compounding property. -/
def sigma_twiceZ (G : List Val → Val) (cube : Cube) (eX eY eZ wS wT gS gT : ℕ) :
    Except String Cube :=
  match sigma_scale G cube false false true eX eY eZ "global" wS wT gS gT with
  | Except.error e => Except.error e
  | Except.ok c1 => sigma_scale G c1 false false true eX eY eZ "global" wS wT gS gT

/-- A constant noise estimator returning 2. -/
def estConst2 : List Val → Val := fun _ => Val.fin 2

/-- A constant noise estimator returning 5. -/
def estConst5 : List Val → Val := fun _ => Val.fin 5

/-- A constant noise estimator returning 0 (a degenerate, never-positive
statistic, e.g. the standard deviation of constant data). -/
def estZero : List Val → Val := fun _ => Val.fin 0

/-- A constant noise estimator returning 1. -/
def estOne : List Val → Val := fun _ => Val.fin 1

/-- A 3×1×2 cube whose X-plane 0 has the valid (non-edge, `edgeZ = 1`)
value 2, and whose X-plane 1 is NaN in the valid region but finite (6) on
the excluded edge. -/
def c1cube : Cube :=
  ⟨3, 1, 2, fun z _ x =>
    if x = 0 then (if z = 1 then Val.fin 2 else Val.fin 4)
    else (if z = 1 then Val.nan else Val.fin 6)⟩

/-- A 1×1×6 cube that is NaN exactly at x = 2 and x = 3 (the full
extent of a windowSpatial = 2 window around the single X grid point 3)
and finite elsewhere. -/
def c2cube : Cube :=
  ⟨1, 1, 6, fun _ _ x => if x = 2 ∨ x = 3 then Val.nan else Val.fin 1⟩

/-- A 1×1×1 cube holding the single finite value 1. -/
def c3cube : Cube := ⟨1, 1, 1, fun _ _ _ => Val.fin 1⟩

/-- A 1×1×1 cube holding a single NaN. -/
def c10cube : Cube := ⟨1, 1, 1, fun _ _ _ => Val.nan⟩

/-- A 1×1×1 data function holding the single finite value 4. -/
def wdata : ℕ → ℕ → ℕ → Val := fun _ _ _ => Val.fin 4

/-- A 1×1×1 cube holding the single finite value 8. -/
def w8cube : Cube := ⟨1, 1, 1, fun _ _ _ => Val.fin 8⟩

/-! ## Exact division agrees with rational division -/

theorem ratDiv_eq_div (a b : ℚ) (hb : b ≠ 0) : ratDiv a b = a / b := by
  have hbn : ((b.num : ℤ) : ℚ) ≠ 0 := by
    exact_mod_cast Rat.num_ne_zero.mpr hb
  have had : ((a.den : ℕ) : ℚ) ≠ 0 := by
    exact_mod_cast a.den_nz
  have hbd : ((b.den : ℕ) : ℚ) ≠ 0 := by
    exact_mod_cast b.den_nz
  conv_rhs => rw [← Rat.num_div_den a, ← Rat.num_div_den b]
  rw [ratDiv, Rat.divInt_eq_div]
  push_cast
  field_simp

/-! ## Congruence of region extraction -/

theorem flatMap_congr {α β : Type} {l : List α} {f g : α → List β}
    (h : ∀ a ∈ l, f a = g a) : l.flatMap f = l.flatMap g := by
  induction l with
  | nil => rfl
  | cons a t ih =>
      simp only [List.flatMap_cons]
      rw [h a (List.mem_cons_self a t), ih (fun b hb => h b (List.mem_cons_of_mem a hb))]

theorem regionVals_congr {d d' : ℕ → ℕ → ℕ → Val} {z1 z2 y1 y2 x1 x2 : ℕ}
    (h : ∀ i j k, i < z2 - z1 → j < y2 - y1 → k < x2 - x1 →
      d (z1 + i) (y1 + j) (x1 + k) = d' (z1 + i) (y1 + j) (x1 + k)) :
    regionVals d z1 z2 y1 y2 x1 x2 = regionVals d' z1 z2 y1 y2 x1 x2 := by
  unfold regionVals
  refine flatMap_congr (fun i hi => ?_)
  refine flatMap_congr (fun j hj => ?_)
  refine List.map_congr_left (fun k hk => ?_)
  exact h i j k (List.mem_range.mp hi) (List.mem_range.mp hj) (List.mem_range.mp hk)

theorem regionZ_congr {d d' : ℕ → ℕ → ℕ → Val} {i y1 y2 x1 x2 : ℕ}
    (h : ∀ y x, d i y x = d' i y x) :
    regionVals d i (i + 1) y1 y2 x1 x2 = regionVals d' i (i + 1) y1 y2 x1 x2 := by
  refine regionVals_congr (fun a j k ha hj hk => ?_)
  have ha0 : a = 0 := by omega
  subst ha0
  exact h _ _

theorem regionY_congr {d d' : ℕ → ℕ → ℕ → Val} {z1 z2 i x1 x2 : ℕ}
    (h : ∀ z x, d z i x = d' z i x) :
    regionVals d z1 z2 i (i + 1) x1 x2 = regionVals d' z1 z2 i (i + 1) x1 x2 := by
  refine regionVals_congr (fun a j k ha hj hk => ?_)
  have hj0 : j = 0 := by omega
  subst hj0
  exact h _ _

theorem regionX_congr {d d' : ℕ → ℕ → ℕ → Val} {z1 z2 y1 y2 i : ℕ}
    (h : ∀ z y, d z y i = d' z y i) :
    regionVals d z1 z2 y1 y2 i (i + 1) = regionVals d' z1 z2 y1 y2 i (i + 1) := by
  refine regionVals_congr (fun a j k ha hj hk => ?_)
  have hk0 : k = 0 := by omega
  subst hk0
  exact h _ _

/-! ## Per-plane behaviour of the Z pass -/

theorem stepZ_fst_other (G : List Val → Val) (y1 y2 x1 x2 : ℕ)
    (acc : (ℕ → ℕ → ℕ → Val) × Option Val) (i z y x : ℕ) (hne : z ≠ i) :
    (stepZ G y1 y2 x1 x2 acc i).1 z y x = acc.1 z y x := by
  unfold stepZ
  split
  · rfl
  · dsimp only
    split
    · simp [hne]
    · rfl

theorem foldZ_fst_not_mem (G : List Val → Val) (y1 y2 x1 x2 : ℕ) (i y x : ℕ) :
    ∀ (l : List ℕ) (acc : (ℕ → ℕ → ℕ → Val) × Option Val), i ∉ l →
    ((l.foldl (stepZ G y1 y2 x1 x2) acc).1) i y x = acc.1 i y x := by
  intro l
  induction l with
  | nil => intro acc _; rfl
  | cons j t ih =>
      intro acc h
      have hij : i ≠ j := fun e => h (e ▸ List.mem_cons_self j t)
      have hit : i ∉ t := fun e => h (List.mem_cons_of_mem j e)
      simp only [List.foldl_cons]
      rw [ih _ hit]
      exact stepZ_fst_other G y1 y2 x1 x2 acc j i y x hij

theorem stepZ_fst_self_congr (G : List Val → Val) (y1 y2 x1 x2 : ℕ)
    (acc acc' : (ℕ → ℕ → ℕ → Val) × Option Val) (i y x : ℕ)
    (h : ∀ y x, acc.1 i y x = acc'.1 i y x) :
    (stepZ G y1 y2 x1 x2 acc i).1 i y x = (stepZ G y1 y2 x1 x2 acc' i).1 i y x := by
  have hreg : regionVals acc.1 i (i + 1) y1 y2 x1 x2 =
      regionVals acc'.1 i (i + 1) y1 y2 x1 x2 := regionZ_congr h
  unfold stepZ
  rw [hreg]
  split
  · exact h y x
  · dsimp only
    split
    · simp [h y x]
    · exact h y x

theorem foldZ_fst_plane (G : List Val → Val) (y1 y2 x1 x2 : ℕ) (i y x : ℕ) :
    ∀ (l : List ℕ) (acc : (ℕ → ℕ → ℕ → Val) × Option Val), l.Nodup → i ∈ l →
    ((l.foldl (stepZ G y1 y2 x1 x2) acc).1) i y x =
      (stepZ G y1 y2 x1 x2 acc i).1 i y x := by
  intro l
  induction l with
  | nil => intro acc _ hmem; cases hmem
  | cons j t ih =>
      intro acc hnd hmem
      obtain ⟨hjt, hnt⟩ := List.nodup_cons.mp hnd
      simp only [List.foldl_cons]
      rcases List.mem_cons.mp hmem with h | h
      · subst h
        exact foldZ_fst_not_mem G y1 y2 x1 x2 i y x t _ hjt
      · have hij : i ≠ j := fun e => hjt (e ▸ h)
        rw [ih _ hnt h]
        exact stepZ_fst_self_congr G y1 y2 x1 x2 _ acc i y x
          (fun y x => stepZ_fst_other G y1 y2 x1 x2 acc j i y x hij)

theorem passZ_plane (G : List Val → Val) (d0 y1 y2 x1 x2 : ℕ)
    (d : ℕ → ℕ → ℕ → Val) (st : Option Val) (i y x : ℕ) (hi : i < d0) :
    (passZ G d0 y1 y2 x1 x2 (d, st)).1 i y x =
      (if allNaN (regionVals d i (i + 1) y1 y2 x1 x2) then d i y x
       else if valGtZero (G (regionVals d i (i + 1) y1 y2 x1 x2)) then
         valDiv (d i y x) (G (regionVals d i (i + 1) y1 y2 x1 x2))
       else d i y x) := by
  unfold passZ
  rw [foldZ_fst_plane G y1 y2 x1 x2 i y x (List.range d0) (d, st)
    (List.nodup_range d0) (List.mem_range.mpr hi)]
  unfold stepZ
  split
  · rfl
  · dsimp only
    split
    · simp
    · rfl

/-! ## Per-plane behaviour of the Y pass -/

theorem stepY_fst_other (G : List Val → Val) (z1 z2 x1 x2 : ℕ)
    (acc : (ℕ → ℕ → ℕ → Val) × Option Val) (i z y x : ℕ) (hne : y ≠ i) :
    (stepY G z1 z2 x1 x2 acc i).1 z y x = acc.1 z y x := by
  unfold stepY
  split
  · rfl
  · dsimp only
    split
    · simp [hne]
    · rfl

theorem foldY_fst_not_mem (G : List Val → Val) (z1 z2 x1 x2 : ℕ) (i z x : ℕ) :
    ∀ (l : List ℕ) (acc : (ℕ → ℕ → ℕ → Val) × Option Val), i ∉ l →
    ((l.foldl (stepY G z1 z2 x1 x2) acc).1) z i x = acc.1 z i x := by
  intro l
  induction l with
  | nil => intro acc _; rfl
  | cons j t ih =>
      intro acc h
      have hij : i ≠ j := fun e => h (e ▸ List.mem_cons_self j t)
      have hit : i ∉ t := fun e => h (List.mem_cons_of_mem j e)
      simp only [List.foldl_cons]
      rw [ih _ hit]
      exact stepY_fst_other G z1 z2 x1 x2 acc j z i x hij

theorem stepY_fst_self_congr (G : List Val → Val) (z1 z2 x1 x2 : ℕ)
    (acc acc' : (ℕ → ℕ → ℕ → Val) × Option Val) (i z x : ℕ)
    (h : ∀ z x, acc.1 z i x = acc'.1 z i x) :
    (stepY G z1 z2 x1 x2 acc i).1 z i x = (stepY G z1 z2 x1 x2 acc' i).1 z i x := by
  have hreg : regionVals acc.1 z1 z2 i (i + 1) x1 x2 =
      regionVals acc'.1 z1 z2 i (i + 1) x1 x2 := regionY_congr h
  unfold stepY
  rw [hreg]
  split
  · exact h z x
  · dsimp only
    split
    · simp [h z x]
    · exact h z x

theorem foldY_fst_plane (G : List Val → Val) (z1 z2 x1 x2 : ℕ) (i z x : ℕ) :
    ∀ (l : List ℕ) (acc : (ℕ → ℕ → ℕ → Val) × Option Val), l.Nodup → i ∈ l →
    ((l.foldl (stepY G z1 z2 x1 x2) acc).1) z i x =
      (stepY G z1 z2 x1 x2 acc i).1 z i x := by
  intro l
  induction l with
  | nil => intro acc _ hmem; cases hmem
  | cons j t ih =>
      intro acc hnd hmem
      obtain ⟨hjt, hnt⟩ := List.nodup_cons.mp hnd
      simp only [List.foldl_cons]
      rcases List.mem_cons.mp hmem with h | h
      · subst h
        exact foldY_fst_not_mem G z1 z2 x1 x2 i z x t _ hjt
      · have hij : i ≠ j := fun e => hjt (e ▸ h)
        rw [ih _ hnt h]
        exact stepY_fst_self_congr G z1 z2 x1 x2 _ acc i z x
          (fun z x => stepY_fst_other G z1 z2 x1 x2 acc j z i x hij)

theorem passY_plane (G : List Val → Val) (d1 z1 z2 x1 x2 : ℕ)
    (d : ℕ → ℕ → ℕ → Val) (st : Option Val) (i z x : ℕ) (hi : i < d1) :
    (passY G d1 z1 z2 x1 x2 (d, st)).1 z i x =
      (if allNaN (regionVals d z1 z2 i (i + 1) x1 x2) then d z i x
       else if valGtZero (G (regionVals d z1 z2 i (i + 1) x1 x2)) then
         valDiv (d z i x) (G (regionVals d z1 z2 i (i + 1) x1 x2))
       else d z i x) := by
  unfold passY
  rw [foldY_fst_plane G z1 z2 x1 x2 i z x (List.range d1) (d, st)
    (List.nodup_range d1) (List.mem_range.mpr hi)]
  unfold stepY
  split
  · rfl
  · dsimp only
    split
    · simp
    · rfl

/-! ## Per-plane behaviour of the X pass -/

theorem passXgo_ok_fst_other (G : List Val → Val) (z1 z2 y1 y2 : ℕ) (i z y : ℕ) :
    ∀ (l : List ℕ) (d : ℕ → ℕ → ℕ → Val) (st : Option Val)
      (res : (ℕ → ℕ → ℕ → Val) × Option Val),
      passXgo G z1 z2 y1 y2 l d st = Except.ok res → i ∉ l →
      res.1 z y i = d z y i := by
  intro l
  induction l with
  | nil =>
      intro d st res h _
      cases h
      rfl
  | cons j t ih =>
      intro d st res h hmem
      have hij : i ≠ j := fun e => hmem (e ▸ List.mem_cons_self j t)
      have hit : i ∉ t := fun e => hmem (List.mem_cons_of_mem j e)
      rw [passXgo] at h
      by_cases hna : allNaN (regionVals d z1 z2 y1 y2 j (j + 1)) = true
      · simp only [hna, if_true] at h
        cases st with
        | none => cases h
        | some rms =>
            have := ih _ _ _ h hit
            rw [this]
            split
            · exact if_neg hij
            · rfl
      · simp only [hna, if_false, Bool.false_eq_true] at h
        have := ih _ _ _ h hit
        rw [this]
        split
        · exact if_neg hij
        · rfl

theorem passXgo_ok_fst_plane (G : List Val → Val) (z1 z2 y1 y2 : ℕ) (i z y : ℕ) :
    ∀ (l : List ℕ) (d : ℕ → ℕ → ℕ → Val) (st : Option Val)
      (res : (ℕ → ℕ → ℕ → Val) × Option Val),
      l.Nodup → i ∈ l →
      allNaN (regionVals d z1 z2 y1 y2 i (i + 1)) = false →
      passXgo G z1 z2 y1 y2 l d st = Except.ok res →
      res.1 z y i =
        (if valGtZero (G (regionVals d z1 z2 y1 y2 i (i + 1))) then
          valDiv (d z y i) (G (regionVals d z1 z2 y1 y2 i (i + 1)))
        else d z y i) := by
  intro l
  induction l with
  | nil => intro d st res _ hmem; cases hmem
  | cons j t ih =>
      intro d st res hnd hmem hna h
      obtain ⟨hjt, hnt⟩ := List.nodup_cons.mp hnd
      rw [passXgo] at h
      rcases List.mem_cons.mp hmem with he | he
      · subst he
        simp only [hna, if_false, Bool.false_eq_true] at h
        have hother := passXgo_ok_fst_other G z1 z2 y1 y2 i z y t _ _ _ h hjt
        rw [hother]
        split
        · simp
        · rfl
      · have hij : i ≠ j := fun e => hjt (e ▸ he)
        by_cases hnaj : allNaN (regionVals d z1 z2 y1 y2 j (j + 1)) = true
        · simp only [hnaj, if_true] at h
          cases st with
          | none => cases h
          | some rms =>
              by_cases hg : valGtZero rms = true
              · simp only [hg, if_true] at h
                have hagree : ∀ z y,
                    (fun z y x => if x = j then valDiv (d z y x) rms else d z y x) z y i =
                      d z y i := fun z y => if_neg hij
                have hreg := @regionX_congr
                  (fun z y x => if x = j then valDiv (d z y x) rms else d z y x)
                  d z1 z2 y1 y2 i hagree
                have hres := ih _ _ _ hnt he (by rw [hreg]; exact hna) h
                rw [hres, hreg]
                simp only [if_neg hij]
              · simp only [hg, if_false, Bool.false_eq_true] at h
                exact ih _ _ _ hnt he hna h
        · simp only [hnaj, if_false, Bool.false_eq_true] at h
          by_cases hg : valGtZero (G (regionVals d z1 z2 y1 y2 j (j + 1))) = true
          · simp only [hg, if_true] at h
            have hagree : ∀ z y,
                (fun z y x => if x = j then
                    valDiv (d z y x) (G (regionVals d z1 z2 y1 y2 j (j + 1)))
                  else d z y x) z y i = d z y i := fun z y => if_neg hij
            have hreg := @regionX_congr
              (fun z y x => if x = j then
                  valDiv (d z y x) (G (regionVals d z1 z2 y1 y2 j (j + 1)))
                else d z y x)
              d z1 z2 y1 y2 i hagree
            have hres := ih _ _ _ hnt he (by rw [hreg]; exact hna) h
            rw [hres, hreg]
            simp only [if_neg hij]
          · simp only [hg, if_false, Bool.false_eq_true] at h
            exact ih _ _ _ hnt he hna h

theorem passXgo_error_msg (G : List Val → Val) (z1 z2 y1 y2 : ℕ) :
    ∀ (l : List ℕ) (d : ℕ → ℕ → ℕ → Val) (st : Option Val) (e : String),
      passXgo G z1 z2 y1 y2 l d st = Except.error e →
      e = "NameError: name rms is not defined" := by
  intro l
  induction l with
  | nil => intro d st e h; cases h
  | cons j t ih =>
      intro d st e h
      rw [passXgo] at h
      by_cases hna : allNaN (regionVals d z1 z2 y1 y2 j (j + 1)) = true
      · simp only [hna, if_true] at h
        cases st with
        | none => cases h; rfl
        | some rms => exact ih _ _ _ h
      · simp only [hna, if_false, Bool.false_eq_true] at h
        exact ih _ _ _ h

theorem passXgo_ok_of_not_nan (G : List Val → Val) (z1 z2 y1 y2 : ℕ) :
    ∀ (l : List ℕ) (d : ℕ → ℕ → ℕ → Val) (st : Option Val),
      l.Nodup →
      (∀ i ∈ l, allNaN (regionVals d z1 z2 y1 y2 i (i + 1)) = false) →
      ∃ res, passXgo G z1 z2 y1 y2 l d st = Except.ok res := by
  intro l
  induction l with
  | nil => intro d st _ _; exact ⟨_, rfl⟩
  | cons j t ih =>
      intro d st hnd hall
      obtain ⟨hjt, hnt⟩ := List.nodup_cons.mp hnd
      have hnaj := hall j (List.mem_cons_self j t)
      rw [passXgo]
      simp only [hnaj, if_false, Bool.false_eq_true]
      refine ih _ _ hnt (fun i hi => ?_)
      have hij : i ≠ j := fun e => hjt (e ▸ hi)
      have hagree : ∀ z y,
          (if valGtZero (G (regionVals d z1 z2 y1 y2 j (j + 1))) then
            fun z y x => if x = j then
                valDiv (d z y x) (G (regionVals d z1 z2 y1 y2 j (j + 1)))
              else d z y x
          else d) z y i = d z y i := by
        intro z y
        split
        · exact if_neg hij
        · rfl
      rw [@regionX_congr _ _ z1 z2 y1 y2 i hagree]
      exact hall i (List.mem_cons_of_mem j hi)

/-! ## The passes do nothing on degenerate measurement regions

If each measured region is entirely NaN or yields a non-positive
estimate, every pass leaves the data component untouched, and every
value ever assigned to `rms` is non-positive. -/

theorem foldZ_id_of_regions (G : List Val → Val) (y1 y2 x1 x2 : ℕ) :
    ∀ (l : List ℕ) (acc : (ℕ → ℕ → ℕ → Val) × Option Val),
    (∀ i ∈ l, allNaN (regionVals acc.1 i (i + 1) y1 y2 x1 x2) = true ∨
      valGtZero (G (regionVals acc.1 i (i + 1) y1 y2 x1 x2)) = false) →
    (∀ v, acc.2 = some v → valGtZero v = false) →
    ((l.foldl (stepZ G y1 y2 x1 x2) acc).1 = acc.1 ∧
      ∀ v, ((l.foldl (stepZ G y1 y2 x1 x2) acc).2) = some v → valGtZero v = false) := by
  intro l
  induction l with
  | nil => intro acc _ hst; exact ⟨rfl, hst⟩
  | cons j t ih =>
      intro acc hreg hst
      simp only [List.foldl_cons]
      by_cases hna : allNaN (regionVals acc.1 j (j + 1) y1 y2 x1 x2) = true
      · have hstep : stepZ G y1 y2 x1 x2 acc j = acc := by
          unfold stepZ
          rw [if_pos hna]
        rw [hstep]
        exact ih acc (fun i hi => hreg i (List.mem_cons_of_mem j hi)) hst
      · have hg : valGtZero (G (regionVals acc.1 j (j + 1) y1 y2 x1 x2)) = false := by
          rcases hreg j (List.mem_cons_self j t) with hcontra | hgood
          · exact absurd hcontra hna
          · exact hgood
        have hstep : stepZ G y1 y2 x1 x2 acc j =
            (acc.1, some (G (regionVals acc.1 j (j + 1) y1 y2 x1 x2))) := by
          unfold stepZ
          rw [if_neg hna]
          dsimp only
          simp only [hg, Bool.false_eq_true, if_false]
        rw [hstep]
        exact ih (acc.1, some (G (regionVals acc.1 j (j + 1) y1 y2 x1 x2)))
          (fun i hi => hreg i (List.mem_cons_of_mem j hi))
          (fun v hv => by cases hv; exact hg)

theorem foldY_id_of_regions (G : List Val → Val) (z1 z2 x1 x2 : ℕ) :
    ∀ (l : List ℕ) (acc : (ℕ → ℕ → ℕ → Val) × Option Val),
    (∀ i ∈ l, allNaN (regionVals acc.1 z1 z2 i (i + 1) x1 x2) = true ∨
      valGtZero (G (regionVals acc.1 z1 z2 i (i + 1) x1 x2)) = false) →
    (∀ v, acc.2 = some v → valGtZero v = false) →
    ((l.foldl (stepY G z1 z2 x1 x2) acc).1 = acc.1 ∧
      ∀ v, ((l.foldl (stepY G z1 z2 x1 x2) acc).2) = some v → valGtZero v = false) := by
  intro l
  induction l with
  | nil => intro acc _ hst; exact ⟨rfl, hst⟩
  | cons j t ih =>
      intro acc hreg hst
      simp only [List.foldl_cons]
      by_cases hna : allNaN (regionVals acc.1 z1 z2 j (j + 1) x1 x2) = true
      · have hstep : stepY G z1 z2 x1 x2 acc j = acc := by
          unfold stepY
          rw [if_pos hna]
        rw [hstep]
        exact ih acc (fun i hi => hreg i (List.mem_cons_of_mem j hi)) hst
      · have hg : valGtZero (G (regionVals acc.1 z1 z2 j (j + 1) x1 x2)) = false := by
          rcases hreg j (List.mem_cons_self j t) with hcontra | hgood
          · exact absurd hcontra hna
          · exact hgood
        have hstep : stepY G z1 z2 x1 x2 acc j =
            (acc.1, some (G (regionVals acc.1 z1 z2 j (j + 1) x1 x2))) := by
          unfold stepY
          rw [if_neg hna]
          dsimp only
          simp only [hg, Bool.false_eq_true, if_false]
        rw [hstep]
        exact ih (acc.1, some (G (regionVals acc.1 z1 z2 j (j + 1) x1 x2)))
          (fun i hi => hreg i (List.mem_cons_of_mem j hi))
          (fun v hv => by cases hv; exact hg)

theorem passXgo_ok_fst_id_of_regions (G : List Val → Val) (z1 z2 y1 y2 : ℕ) :
    ∀ (l : List ℕ) (d : ℕ → ℕ → ℕ → Val) (st : Option Val)
      (res : (ℕ → ℕ → ℕ → Val) × Option Val),
      (∀ i ∈ l, allNaN (regionVals d z1 z2 y1 y2 i (i + 1)) = true ∨
        valGtZero (G (regionVals d z1 z2 y1 y2 i (i + 1))) = false) →
      (∀ v, st = some v → valGtZero v = false) →
      passXgo G z1 z2 y1 y2 l d st = Except.ok res → res.1 = d := by
  intro l
  induction l with
  | nil =>
      intro d st res _ _ h
      cases h
      rfl
  | cons j t ih =>
      intro d st res hreg hst h
      rw [passXgo] at h
      by_cases hna : allNaN (regionVals d z1 z2 y1 y2 j (j + 1)) = true
      · simp only [hna, if_true] at h
        cases st with
        | none => cases h
        | some rms =>
            have hgs : valGtZero rms = false := hst rms rfl
            simp only [hgs, Bool.false_eq_true, if_false] at h
            exact ih _ _ _ (fun i hi => hreg i (List.mem_cons_of_mem j hi))
              (fun v hv => by cases hv; exact hgs) h
      · have hg : valGtZero (G (regionVals d z1 z2 y1 y2 j (j + 1))) = false := by
          rcases hreg j (List.mem_cons_self j t) with hcontra | hgood
          · exact absurd hcontra hna
          · exact hgood
        simp only [hna, if_false, Bool.false_eq_true] at h
        simp only [hg, Bool.false_eq_true, if_false] at h
        exact ih _ _ _ (fun i hi => hreg i (List.mem_cons_of_mem j hi))
          (fun v hv => by cases hv; exact hg) h

/-! ## Division algebra on `Val` -/

theorem valDiv_valDiv_fin (v : Val) (q1 q2 : ℚ) (h1 : 0 < q1) (h2 : 0 < q2) :
    valDiv (valDiv v (Val.fin q1)) (Val.fin q2) = valDiv v (Val.fin (q1 * q2)) := by
  have hq1 : ¬(q1 = 0) := ne_of_gt h1
  have hq2 : ¬(q2 = 0) := ne_of_gt h2
  have h12 : 0 < q1 * q2 := mul_pos h1 h2
  have hq12 : ¬(q1 * q2 = 0) := ne_of_gt h12
  cases v with
  | nan => rfl
  | inf =>
      simp only [valDiv, if_pos (le_of_lt h1), if_pos (le_of_lt h2), if_pos (le_of_lt h12)]
  | ninf =>
      simp only [valDiv, if_pos (le_of_lt h1), if_pos (le_of_lt h2), if_pos (le_of_lt h12)]
  | fin a =>
      simp only [valDiv, if_neg hq1, if_neg hq2, if_neg hq12]
      rw [ratDiv_eq_div a q1 (ne_of_gt h1), ratDiv_eq_div _ q2 (ne_of_gt h2),
        ratDiv_eq_div a (q1 * q2) (ne_of_gt h12), div_div]

/-! ## Claims -/

/-- C4: the claim says each of the four sizes is independently clamped and
rounded, so that the normalized `windowSpectral` depends on the supplied
`windowSpectral` alone (supplying 30 should yield 30).  The code instead
computes `windowSpectral = max(windowSpatial, 2)`: with
`windowSpatial = 4`, `windowSpectral = 30` the normalized spectral window
is 4, not 30. -/
theorem normalizedSizes_windowSpectral_ignores_input :
    (normalizedSizes 4 30 10 10).2.1 = 4 ∧ (normalizedSizes 4 30 10 10).2.1 ≠ 30 := by
  decide

/-- C10: with `scaleX` enabled, `scaleZ` and `scaleY` disabled and the
first X-plane's valid sub-region entirely NaN, the guard `if rms > 0`
reads the never-assigned variable `rms` and the run fails with a
`NameError` instead of skipping. -/
theorem sigma_scale_scaleX_unbound_rms :
    sigma_scale estOne c10cube true false false 0 0 0 "global" 20 20 10 10 =
      Except.error "NameError: name rms is not defined" := rfl

/-- C1: the claim says an all-NaN valid plane is left unmodified on every
enabled axis.  On the X axis the guard `if rms > 0` runs unconditionally:
here X-plane 1 has an all-NaN valid sub-region (`edgeZ = 1`), yet the
stale `rms = 2` measured on X-plane 0 divides it, changing the edge voxel
`(0,0,1)` from 6 to 3. -/
theorem sigma_scale_allNaN_X_plane_modified :
    c1cube.data 0 0 1 = Val.fin 6 ∧
    allNaN (regionVals c1cube.data 1 2 0 1 1 2) = true ∧
    outData (sigma_scale estConst2 c1cube true false false 0 0 1 "global" 20 20 10 10)
      0 0 1 = some (Val.fin 3) := by
  decide

/-- C2: the claim says a grid cell whose window is entirely NaN keeps the
default noise value 0 and is left unchanged by the final division, and
that no voxel is ever divided by a non-positive noise value.  The code
performs `cube /= rms_cube` unconditionally: the finite voxel `(0,0,0)`
of `c2cube` (value 1) lies in a grid cell whose window (x = 2..3) is all
NaN, and dividing it by the retained 0 turns it into `inf`. -/
theorem sigma_scale_local_allNaN_window_divides_by_zero :
    c2cube.data 0 0 0 = Val.fin 1 ∧
    ((windowList 1 1 6 1 1 6 2).all (fun w => allNaN (regValsR c2cube.data w))) = true ∧
    outData (sigma_scale estConst5 c2cube false false true 0 0 0 "local" 2 2 6 2)
      0 0 0 = some Val.inf := by
  decide

/-- C7: in the global method, on each enabled axis and plane index with a
not-all-NaN valid sub-region, the noise estimate is taken over the valid
sub-region only, and if it is `> 0` the division applies to the whole
plane (every index of the other two axes); if it is `≤ 0` (not `> 0`)
the plane is unchanged. -/
theorem global_plane_measured_on_valid_applied_to_whole :
    (∀ (G : List Val → Val) (d0 y1 y2 x1 x2 : ℕ) (d : ℕ → ℕ → ℕ → Val)
      (st : Option Val) (i y x : ℕ), i < d0 →
      allNaN (regionVals d i (i + 1) y1 y2 x1 x2) = false →
      (passZ G d0 y1 y2 x1 x2 (d, st)).1 i y x =
        (if valGtZero (G (regionVals d i (i + 1) y1 y2 x1 x2)) then
          valDiv (d i y x) (G (regionVals d i (i + 1) y1 y2 x1 x2))
        else d i y x)) ∧
    (∀ (G : List Val → Val) (d1 z1 z2 x1 x2 : ℕ) (d : ℕ → ℕ → ℕ → Val)
      (st : Option Val) (i z x : ℕ), i < d1 →
      allNaN (regionVals d z1 z2 i (i + 1) x1 x2) = false →
      (passY G d1 z1 z2 x1 x2 (d, st)).1 z i x =
        (if valGtZero (G (regionVals d z1 z2 i (i + 1) x1 x2)) then
          valDiv (d z i x) (G (regionVals d z1 z2 i (i + 1) x1 x2))
        else d z i x)) ∧
    (∀ (G : List Val → Val) (z1 z2 y1 y2 d2 : ℕ) (d : ℕ → ℕ → ℕ → Val)
      (st : Option Val) (res : (ℕ → ℕ → ℕ → Val) × Option Val) (i z y : ℕ),
      i < d2 →
      allNaN (regionVals d z1 z2 y1 y2 i (i + 1)) = false →
      passXgo G z1 z2 y1 y2 (List.range d2) d st = Except.ok res →
      res.1 z y i =
        (if valGtZero (G (regionVals d z1 z2 y1 y2 i (i + 1))) then
          valDiv (d z y i) (G (regionVals d z1 z2 y1 y2 i (i + 1)))
        else d z y i)) := by
  refine ⟨?_, ?_, ?_⟩
  · intro G d0 y1 y2 x1 x2 d st i y x hi hna
    rw [passZ_plane G d0 y1 y2 x1 x2 d st i y x hi]
    simp only [hna, Bool.false_eq_true, if_false]
  · intro G d1 z1 z2 x1 x2 d st i z x hi hna
    rw [passY_plane G d1 z1 z2 x1 x2 d st i z x hi]
    simp only [hna, Bool.false_eq_true, if_false]
  · intro G z1 z2 y1 y2 d2 d st res i z y hi hna h
    exact passXgo_ok_fst_plane G z1 z2 y1 y2 i z y (List.range d2) d st res
      (List.nodup_range d2) (List.mem_range.mpr hi) hna h

/-- Witness for C7 at a concrete 1×1×1 input with estimator 2: each pass
divides the whole plane by 2 (4 becomes 2). -/
theorem global_plane_measured_on_valid_applied_to_whole_witness :
    (passZ estConst2 1 0 1 0 1 (wdata, none)).1 0 0 0 = Val.fin 2 ∧
    (passY estConst2 1 0 1 0 1 (wdata, none)).1 0 0 0 = Val.fin 2 ∧
    passXfstAt estConst2 0 1 0 1 1 wdata none 0 0 0 = some (Val.fin 2) := by
  refine ⟨?_, ?_, ?_⟩
  · rw [global_plane_measured_on_valid_applied_to_whole.1 estConst2 1 0 1 0 1 wdata none
      0 0 0 (by decide) (by decide)]
    decide
  · rw [global_plane_measured_on_valid_applied_to_whole.2.1 estConst2 1 0 1 0 1 wdata none
      0 0 0 (by decide) (by decide)]
    decide
  · cases hx : passXgo estConst2 0 1 0 1 (List.range 1) wdata none with
    | error e => cases hx
    | ok res =>
        have := global_plane_measured_on_valid_applied_to_whole.2.2 estConst2 0 1 0 1 1
          wdata none res 0 0 0 (by decide) (by decide) hx
        unfold passXfstAt
        rw [hx]
        dsimp only
        rw [this]
        decide

/-- C3 (amended): for the global method, if every measurement region of
each enabled axis is entirely NaN, or the estimator returns a
non-positive value on every measurement region of each enabled axis,
then whenever `sigma_scale` returns a cube at all (with `scaleX` enabled
it can instead abort with a `NameError` when `rms` is never assigned),
the returned cube equals the input at every voxel.  The local method
does NOT have this no-op property (see the counterexample): there the
all-zero noise map is divided into the cube unconditionally. -/
theorem sigma_scale_global_degenerate_noop (G : List Val → Val) (cube : Cube)
    (sX sY sZ : Bool) (eX eY eZ wS wT gS gT : ℕ)
    (hdeg :
      ((sZ = true → ∀ i, i < cube.d0 →
          allNaN (regionVals cube.data i (i + 1) eY (cube.d1 - eY) eX (cube.d2 - eX)) =
            true) ∧
       (sY = true → ∀ j, j < cube.d1 →
          allNaN (regionVals cube.data eZ (cube.d0 - eZ) j (j + 1) eX (cube.d2 - eX)) =
            true) ∧
       (sX = true → ∀ k, k < cube.d2 →
          allNaN (regionVals cube.data eZ (cube.d0 - eZ) eY (cube.d1 - eY) k (k + 1)) =
            true)) ∨
      ((sZ = true → ∀ i, i < cube.d0 →
          valGtZero (G (regionVals cube.data i (i + 1) eY (cube.d1 - eY) eX
            (cube.d2 - eX))) = false) ∧
       (sY = true → ∀ j, j < cube.d1 →
          valGtZero (G (regionVals cube.data eZ (cube.d0 - eZ) j (j + 1) eX
            (cube.d2 - eX))) = false) ∧
       (sX = true → ∀ k, k < cube.d2 →
          valGtZero (G (regionVals cube.data eZ (cube.d0 - eZ) eY (cube.d1 - eY) k
            (k + 1))) = false)))
    (out : Cube)
    (h : sigma_scale G cube sX sY sZ eX eY eZ "global" wS wT gS gT = Except.ok out) :
    ∀ z y x, out.data z y x = cube.data z y x := by
  have hz' : sZ = true → ∀ i, i < cube.d0 →
      allNaN (regionVals cube.data i (i + 1) eY (cube.d1 - eY) eX (cube.d2 - eX)) =
        true ∨
      valGtZero (G (regionVals cube.data i (i + 1) eY (cube.d1 - eY) eX
        (cube.d2 - eX))) = false := by
    rcases hdeg with ⟨h1, _, _⟩ | ⟨h1, _, _⟩
    · exact fun hs i hi => Or.inl (h1 hs i hi)
    · exact fun hs i hi => Or.inr (h1 hs i hi)
  have hy' : sY = true → ∀ j, j < cube.d1 →
      allNaN (regionVals cube.data eZ (cube.d0 - eZ) j (j + 1) eX (cube.d2 - eX)) =
        true ∨
      valGtZero (G (regionVals cube.data eZ (cube.d0 - eZ) j (j + 1) eX
        (cube.d2 - eX))) = false := by
    rcases hdeg with ⟨_, h1, _⟩ | ⟨_, h1, _⟩
    · exact fun hs j hj => Or.inl (h1 hs j hj)
    · exact fun hs j hj => Or.inr (h1 hs j hj)
  have hx' : sX = true → ∀ k, k < cube.d2 →
      allNaN (regionVals cube.data eZ (cube.d0 - eZ) eY (cube.d1 - eY) k (k + 1)) =
        true ∨
      valGtZero (G (regionVals cube.data eZ (cube.d0 - eZ) eY (cube.d1 - eY) k
        (k + 1))) = false := by
    rcases hdeg with ⟨_, _, h1⟩ | ⟨_, _, h1⟩
    · exact fun hs k hk => Or.inl (h1 hs k hk)
    · exact fun hs k hk => Or.inr (h1 hs k hk)
  intro z y x
  unfold sigma_scale at h
  dsimp only at h
  split at h
  · cases h
  · split at h
    · next hloc => exact absurd hloc (by decide)
    · have hfst1 : (if sZ = true then
          passZ G cube.d0 eY (cube.d1 - eY) eX (cube.d2 - eX) (cube.data, none)
        else (cube.data, none)).1 = cube.data := by
        split
        · next hsz =>
            exact (foldZ_id_of_regions G eY (cube.d1 - eY) eX (cube.d2 - eX)
              (List.range cube.d0) (cube.data, none)
              (fun i hi => hz' hsz i (List.mem_range.mp hi))
              (fun v hv => by cases hv)).1
        · rfl
      have hsnd1 : ∀ v, (if sZ = true then
          passZ G cube.d0 eY (cube.d1 - eY) eX (cube.d2 - eX) (cube.data, none)
        else (cube.data, none)).2 = some v → valGtZero v = false := by
        split
        · next hsz =>
            exact (foldZ_id_of_regions G eY (cube.d1 - eY) eX (cube.d2 - eX)
              (List.range cube.d0) (cube.data, none)
              (fun i hi => hz' hsz i (List.mem_range.mp hi))
              (fun v hv => by cases hv)).2
        · intro v hv; cases hv
      have hfst2 : (if sY = true then
          passY G cube.d1 eZ (cube.d0 - eZ) eX (cube.d2 - eX)
            (if sZ = true then
              passZ G cube.d0 eY (cube.d1 - eY) eX (cube.d2 - eX) (cube.data, none)
            else (cube.data, none))
        else
          if sZ = true then
            passZ G cube.d0 eY (cube.d1 - eY) eX (cube.d2 - eX) (cube.data, none)
          else (cube.data, none)).1 = cube.data := by
        split
        · next hsy =>
            have hres := (foldY_id_of_regions G eZ (cube.d0 - eZ) eX (cube.d2 - eX)
              (List.range cube.d1)
              (if sZ = true then
                passZ G cube.d0 eY (cube.d1 - eY) eX (cube.d2 - eX) (cube.data, none)
              else (cube.data, none))
              (fun j hj => by rw [hfst1]; exact hy' hsy j (List.mem_range.mp hj))
              hsnd1).1
            rw [passY, hres, hfst1]
        · exact hfst1
      have hsnd2 : ∀ v, (if sY = true then
          passY G cube.d1 eZ (cube.d0 - eZ) eX (cube.d2 - eX)
            (if sZ = true then
              passZ G cube.d0 eY (cube.d1 - eY) eX (cube.d2 - eX) (cube.data, none)
            else (cube.data, none))
        else
          if sZ = true then
            passZ G cube.d0 eY (cube.d1 - eY) eX (cube.d2 - eX) (cube.data, none)
          else (cube.data, none)).2 = some v → valGtZero v = false := by
        split
        · next hsy =>
            exact (foldY_id_of_regions G eZ (cube.d0 - eZ) eX (cube.d2 - eX)
              (List.range cube.d1)
              (if sZ = true then
                passZ G cube.d0 eY (cube.d1 - eY) eX (cube.d2 - eX) (cube.data, none)
              else (cube.data, none))
              (fun j hj => by rw [hfst1]; exact hy' hsy j (List.mem_range.mp hj))
              hsnd1).2
        · exact hsnd1
      split at h
      · next hsx =>
        split at h
        · cases h
        · next p3 heq =>
            injection h with h'
            rw [← h']
            dsimp only
            rw [passXgo_ok_fst_id_of_regions G eZ (cube.d0 - eZ) eY (cube.d1 - eY)
              (List.range cube.d2) _ _ p3
              (fun k hk => by rw [hfst2]; exact hx' hsx k (List.mem_range.mp hk))
              hsnd2 heq, hfst2]
      · injection h with h'
        rw [← h']
        dsimp only
        rw [hfst2]

/-- C3 (counterexample): with the local method, an estimator that always
returns 0 (never positive, as in "std of constant data") does NOT yield a
no-op: the single finite voxel of `c3cube` (value 1) is divided by the
zero noise map and becomes `inf`.  This refutes the claim as stated ("for
both the global and the local method"). -/
theorem sigma_scale_local_nonpos_not_noop :
    ¬((∀ xs, valGtZero (estZero xs) = false) →
      ∀ out, sigma_scale estZero c3cube false false true 0 0 0 "local" 20 20 10 10 =
          Except.ok out →
        ∀ z, z < c3cube.d0 → ∀ y, y < c3cube.d1 → ∀ x, x < c3cube.d2 →
          out.data z y x = c3cube.data z y x) := by
  intro hcl
  have hobs : outData
      (sigma_scale estZero c3cube false false true 0 0 0 "local" 20 20 10 10) 0 0 0 =
      some Val.inf := by decide
  cases hs : sigma_scale estZero c3cube false false true 0 0 0 "local" 20 20 10 10 with
  | error e => rw [hs] at hobs; cases hobs
  | ok c =>
      have h2 := hcl (fun xs => rfl) c hs 0 (by decide) 0 (by decide) 0 (by decide)
      rw [hs] at hobs
      unfold outData at hobs
      dsimp only at hobs
      injection hobs with hv
      rw [h2] at hv
      exact absurd hv (by decide)

/-- Witness for the amended C3 at a concrete input: the global method
with the all-zero estimator (covering the non-positive disjunct of the
hypothesis) returns the input value unchanged. -/
theorem sigma_scale_global_degenerate_noop_witness :
    outData (sigma_scale estZero c3cube false false true 0 0 0 "global" 20 20 10 10)
      0 0 0 = some (c3cube.data 0 0 0) := by
  have hobs : outData
      (sigma_scale estZero c3cube false false true 0 0 0 "global" 20 20 10 10) 0 0 0 =
      some (Val.fin 1) := by decide
  cases hs : sigma_scale estZero c3cube false false true 0 0 0 "global" 20 20 10 10 with
  | error e => rw [hs] at hobs; cases hobs
  | ok c =>
      have h2 := sigma_scale_global_degenerate_noop estZero c3cube false false true
        0 0 0 20 20 10 10
        (Or.inr ⟨fun _ i _ => rfl, fun hc => Bool.noConfusion hc,
          fun hc => Bool.noConfusion hc⟩)
        c hs 0 0 0
      unfold outData
      dsimp only
      rw [h2]

/-- C5: `sigma_scale` fails with the fatal edge-size error exactly when
the edge exclusion consumes the whole of at least one axis
(`2 * edge ≥ axis length`); in that case no cube is returned (the error
carries no partial result), and in no other situation is this error
produced. -/
theorem sigma_scale_edge_error_iff (G : List Val → Val) (cube : Cube)
    (sX sY sZ : Bool) (eX eY eZ : ℕ) (method : String) (wS wT gS gT : ℕ) :
    sigma_scale G cube sX sY sZ eX eY eZ method wS wT gS gT = Except.error edgeErrMsg ↔
      (2 * eZ ≥ cube.d0 ∨ 2 * eY ≥ cube.d1 ∨ 2 * eX ≥ cube.d2) := by
  have hiff : (eZ ≥ cube.d0 - eZ ∨ eY ≥ cube.d1 - eY ∨ eX ≥ cube.d2 - eX) ↔
      (2 * eZ ≥ cube.d0 ∨ 2 * eY ≥ cube.d1 ∨ 2 * eX ≥ cube.d2) := by omega
  unfold sigma_scale
  dsimp only
  by_cases hc : (eZ ≥ cube.d0 - eZ ∨ eY ≥ cube.d1 - eY ∨ eX ≥ cube.d2 - eX)
  · rw [if_pos hc]
    simp only [hiff.mp hc, iff_true]
  · rw [if_neg hc]
    have hnc : ¬(2 * eZ ≥ cube.d0 ∨ 2 * eY ≥ cube.d1 ∨ 2 * eX ≥ cube.d2) :=
      fun hr => hc (hiff.mpr hr)
    simp only [hnc, iff_false]
    intro hbad
    split at hbad
    · cases hbad
    · split at hbad
      · split at hbad
        · next e heq =>
            injection hbad with he
            have hmsg := passXgo_error_msg G eZ (cube.d0 - eZ) eY (cube.d1 - eY)
              (List.range cube.d2) _ _ e heq
            exact absurd (he ▸ hmsg) (by decide)
        · cases hbad
      · cases hbad

/-- C6: in the global method with all three axes enabled, the passes run
in the fixed order Z, then Y, then X; the Y pass measures noise on the
Z-scaled cube and the X pass on the ZY-scaled cube (visible in the
hypotheses, which constrain the estimator on `passZ` / `passY ∘ passZ`
outputs), and each voxel ends up divided by the product
`qZ z * qY y * qX x` of the three measured RMS values — the corrections
compound multiplicatively in that order. -/
theorem sigma_scale_global_ZYX_compound (G : List Val → Val) (cube : Cube)
    (eX eY eZ wS wT gS gT : ℕ) (qZ qY qX : ℕ → ℚ)
    (hedge : ¬(eZ ≥ cube.d0 - eZ ∨ eY ≥ cube.d1 - eY ∨ eX ≥ cube.d2 - eX))
    (hz : ∀ i, i < cube.d0 →
      allNaN (regionVals cube.data i (i + 1) eY (cube.d1 - eY) eX (cube.d2 - eX)) = false ∧
      G (regionVals cube.data i (i + 1) eY (cube.d1 - eY) eX (cube.d2 - eX)) =
        Val.fin (qZ i) ∧ 0 < qZ i)
    (hy : ∀ j, j < cube.d1 →
      allNaN (regionVals
        (passZ G cube.d0 eY (cube.d1 - eY) eX (cube.d2 - eX) (cube.data, none)).1
        eZ (cube.d0 - eZ) j (j + 1) eX (cube.d2 - eX)) = false ∧
      G (regionVals
        (passZ G cube.d0 eY (cube.d1 - eY) eX (cube.d2 - eX) (cube.data, none)).1
        eZ (cube.d0 - eZ) j (j + 1) eX (cube.d2 - eX)) = Val.fin (qY j) ∧ 0 < qY j)
    (hx : ∀ k, k < cube.d2 →
      allNaN (regionVals
        (passY G cube.d1 eZ (cube.d0 - eZ) eX (cube.d2 - eX)
          (passZ G cube.d0 eY (cube.d1 - eY) eX (cube.d2 - eX) (cube.data, none))).1
        eZ (cube.d0 - eZ) eY (cube.d1 - eY) k (k + 1)) = false ∧
      G (regionVals
        (passY G cube.d1 eZ (cube.d0 - eZ) eX (cube.d2 - eX)
          (passZ G cube.d0 eY (cube.d1 - eY) eX (cube.d2 - eX) (cube.data, none))).1
        eZ (cube.d0 - eZ) eY (cube.d1 - eY) k (k + 1)) = Val.fin (qX k) ∧ 0 < qX k) :
    ∃ out,
      sigma_scale G cube true true true eX eY eZ "global" wS wT gS gT = Except.ok out ∧
      ∀ z, z < cube.d0 → ∀ y, y < cube.d1 → ∀ x, x < cube.d2 →
        out.data z y x = valDiv (cube.data z y x) (Val.fin (qZ z * qY y * qX x)) := by
  obtain ⟨res, hres⟩ := passXgo_ok_of_not_nan G eZ (cube.d0 - eZ) eY (cube.d1 - eY)
    (List.range cube.d2)
    (passY G cube.d1 eZ (cube.d0 - eZ) eX (cube.d2 - eX)
      (passZ G cube.d0 eY (cube.d1 - eY) eX (cube.d2 - eX) (cube.data, none))).1
    (passY G cube.d1 eZ (cube.d0 - eZ) eX (cube.d2 - eX)
      (passZ G cube.d0 eY (cube.d1 - eY) eX (cube.d2 - eX) (cube.data, none))).2
    (List.nodup_range _) (fun k hk => (hx k (List.mem_range.mp hk)).1)
  refine ⟨⟨cube.d0, cube.d1, cube.d2, res.1⟩, ?_, ?_⟩
  · unfold sigma_scale
    dsimp only
    rw [if_neg hedge, if_neg (by decide : ¬("global" = "local"))]
    simp only [reduceIte]
    rw [hres]
  · intro z hz' y hy' x hx'
    dsimp only
    have h3 := passXgo_ok_fst_plane G eZ (cube.d0 - eZ) eY (cube.d1 - eY) x z y
      (List.range cube.d2) _ _ res (List.nodup_range _) (List.mem_range.mpr hx')
      (hx x hx').1 hres
    rw [(hx x hx').2.1] at h3
    have hgx : valGtZero (Val.fin (qX x)) = true := by
      simp [valGtZero, (hx x hx').2.2]
    rw [hgx] at h3
    rw [if_pos rfl] at h3
    -- now the Y layer
    have hpair : passZ G cube.d0 eY (cube.d1 - eY) eX (cube.d2 - eX) (cube.data, none) =
        ((passZ G cube.d0 eY (cube.d1 - eY) eX (cube.d2 - eX) (cube.data, none)).1,
         (passZ G cube.d0 eY (cube.d1 - eY) eX (cube.d2 - eX) (cube.data, none)).2) := rfl
    have h2 := passY_plane G cube.d1 eZ (cube.d0 - eZ) eX (cube.d2 - eX)
      (passZ G cube.d0 eY (cube.d1 - eY) eX (cube.d2 - eX) (cube.data, none)).1
      (passZ G cube.d0 eY (cube.d1 - eY) eX (cube.d2 - eX) (cube.data, none)).2
      y z x hy'
    rw [← hpair] at h2
    rw [(hy y hy').1] at h2
    simp only [Bool.false_eq_true, if_false] at h2
    rw [(hy y hy').2.1] at h2
    have hgy : valGtZero (Val.fin (qY y)) = true := by
      simp [valGtZero, (hy y hy').2.2]
    rw [hgy, if_pos rfl] at h2
    -- now the Z layer
    have h1 := passZ_plane G cube.d0 eY (cube.d1 - eY) eX (cube.d2 - eX)
      cube.data none z y x hz'
    rw [(hz z hz').1] at h1
    simp only [Bool.false_eq_true, if_false] at h1
    rw [(hz z hz').2.1] at h1
    have hgz : valGtZero (Val.fin (qZ z)) = true := by
      simp [valGtZero, (hz z hz').2.2]
    rw [hgz, if_pos rfl] at h1
    rw [h3, h2, h1]
    rw [valDiv_valDiv_fin _ (qZ z) (qY y) (hz z hz').2.2 (hy y hy').2.2,
      valDiv_valDiv_fin _ (qZ z * qY y) (qX x)
        (mul_pos (hz z hz').2.2 (hy y hy').2.2) (hx x hx').2.2]

/-- Witness for C6: a 1×1×1 cube with value 8 and constant estimator 2 is
divided by 2 three times (once per axis), yielding 1. -/
theorem sigma_scale_global_ZYX_compound_witness :
    outData (sigma_scale estConst2 w8cube true true true 0 0 0 "global" 20 20 10 10)
      0 0 0 = some (Val.fin 1) := by
  obtain ⟨out, heq, hval⟩ := sigma_scale_global_ZYX_compound estConst2 w8cube
    0 0 0 20 20 10 10 (fun _ => 2) (fun _ => 2) (fun _ => 2)
    (by decide)
    (fun i hi => by
      have hi0 : i = 0 := Nat.lt_one_iff.mp hi
      subst hi0
      exact ⟨by decide, rfl, by norm_num⟩)
    (fun j hj => by
      have hj0 : j = 0 := Nat.lt_one_iff.mp hj
      subst hj0
      exact ⟨by decide, rfl, by norm_num⟩)
    (fun k hk => by
      have hk0 : k = 0 := Nat.lt_one_iff.mp hk
      subst hk0
      exact ⟨by decide, rfl, by norm_num⟩)
  rw [heq]
  unfold outData
  dsimp only
  rw [hval 0 (by decide) 0 (by decide) 0 (by decide)]
  have hq : ((fun (_ : ℕ) => (2 : ℚ)) 0 * (fun (_ : ℕ) => (2 : ℚ)) 0 *
      (fun (_ : ℕ) => (2 : ℚ)) 0) = 8 := by norm_num
  rw [hq]
  decide

/-- C9: running the global method with only `scaleZ` enabled twice in
succession divides each Z-plane by the product of the two measured RMS
values; the second measurement is taken on the already-scaled cube (its
hypothesis constrains the estimator on the `passZ` output), so a single
application is not idempotent unless both measurements coincide at 1. -/
theorem sigma_scale_scaleZ_twice_compounds (G : List Val → Val) (cube : Cube)
    (eX eY eZ wS wT gS gT : ℕ) (q1 q2 : ℕ → ℚ)
    (hedge : ¬(eZ ≥ cube.d0 - eZ ∨ eY ≥ cube.d1 - eY ∨ eX ≥ cube.d2 - eX))
    (h1 : ∀ i, i < cube.d0 →
      allNaN (regionVals cube.data i (i + 1) eY (cube.d1 - eY) eX (cube.d2 - eX)) = false ∧
      G (regionVals cube.data i (i + 1) eY (cube.d1 - eY) eX (cube.d2 - eX)) =
        Val.fin (q1 i) ∧ 0 < q1 i)
    (h2 : ∀ i, i < cube.d0 →
      allNaN (regionVals
        (passZ G cube.d0 eY (cube.d1 - eY) eX (cube.d2 - eX) (cube.data, none)).1
        i (i + 1) eY (cube.d1 - eY) eX (cube.d2 - eX)) = false ∧
      G (regionVals
        (passZ G cube.d0 eY (cube.d1 - eY) eX (cube.d2 - eX) (cube.data, none)).1
        i (i + 1) eY (cube.d1 - eY) eX (cube.d2 - eX)) = Val.fin (q2 i) ∧ 0 < q2 i) :
    ∃ out1 out2,
      sigma_scale G cube false false true eX eY eZ "global" wS wT gS gT =
        Except.ok out1 ∧
      sigma_scale G out1 false false true eX eY eZ "global" wS wT gS gT =
        Except.ok out2 ∧
      ∀ z, z < cube.d0 → ∀ y x,
        out2.data z y x = valDiv (cube.data z y x) (Val.fin (q1 z * q2 z)) := by
  refine ⟨⟨cube.d0, cube.d1, cube.d2,
      (passZ G cube.d0 eY (cube.d1 - eY) eX (cube.d2 - eX) (cube.data, none)).1⟩,
    ⟨cube.d0, cube.d1, cube.d2,
      (passZ G cube.d0 eY (cube.d1 - eY) eX (cube.d2 - eX)
        ((passZ G cube.d0 eY (cube.d1 - eY) eX (cube.d2 - eX) (cube.data, none)).1,
          none)).1⟩, ?_, ?_, ?_⟩
  · unfold sigma_scale
    dsimp only
    rw [if_neg hedge, if_neg (by decide : ¬("global" = "local"))]
    simp only [Bool.false_eq_true, if_false, reduceIte]
  · unfold sigma_scale
    dsimp only
    rw [if_neg hedge, if_neg (by decide : ¬("global" = "local"))]
    simp only [Bool.false_eq_true, if_false, reduceIte]
  · intro z hz' y x
    dsimp only
    have hb := passZ_plane G cube.d0 eY (cube.d1 - eY) eX (cube.d2 - eX)
      (passZ G cube.d0 eY (cube.d1 - eY) eX (cube.d2 - eX) (cube.data, none)).1
      none z y x hz'
    rw [(h2 z hz').1] at hb
    simp only [Bool.false_eq_true, if_false] at hb
    rw [(h2 z hz').2.1] at hb
    have hg2 : valGtZero (Val.fin (q2 z)) = true := by
      simp [valGtZero, (h2 z hz').2.2]
    rw [hg2, if_pos rfl] at hb
    have ha := passZ_plane G cube.d0 eY (cube.d1 - eY) eX (cube.d2 - eX)
      cube.data none z y x hz'
    rw [(h1 z hz').1] at ha
    simp only [Bool.false_eq_true, if_false] at ha
    rw [(h1 z hz').2.1] at ha
    have hg1 : valGtZero (Val.fin (q1 z)) = true := by
      simp [valGtZero, (h1 z hz').2.2]
    rw [hg1, if_pos rfl] at ha
    rw [hb, ha]
    exact valDiv_valDiv_fin _ (q1 z) (q2 z) (h1 z hz').2.2 (h2 z hz').2.2

/-- Witness for C9: a 1×1×1 cube with value 8 and constant estimator 2,
scaled on Z twice, is divided by 2·2 = 4, yielding 2. -/
theorem sigma_scale_scaleZ_twice_compounds_witness :
    outData (sigma_twiceZ estConst2 w8cube 0 0 0 20 20 10 10) 0 0 0 =
      some (Val.fin 2) := by
  obtain ⟨out1, out2, he1, he2, hval⟩ := sigma_scale_scaleZ_twice_compounds estConst2
    w8cube 0 0 0 20 20 10 10 (fun _ => 2) (fun _ => 2)
    (by decide)
    (fun i hi => by
      have hi0 : i = 0 := Nat.lt_one_iff.mp hi
      subst hi0
      exact ⟨by decide, rfl, by norm_num⟩)
    (fun i hi => by
      have hi0 : i = 0 := Nat.lt_one_iff.mp hi
      subst hi0
      exact ⟨by decide, rfl, by norm_num⟩)
  unfold sigma_twiceZ
  rw [he1]
  dsimp only
  rw [he2]
  unfold outData
  dsimp only
  rw [hval 0 (by decide) 0 0]
  have hq : ((fun (_ : ℕ) => (2 : ℚ)) 0 * (fun (_ : ℕ) => (2 : ℚ)) 0) = 4 := by norm_num
  rw [hq]
  decide

theorem ceilDiv_pos (m g : ℕ) (hm : 1 ≤ m) (hg : 0 < g) : 1 ≤ ceilDiv m g := by
  unfold ceilDiv
  have h1 : m + g - 1 = (m - 1) + g := by omega
  rw [h1, Nat.add_div_right _ hg]
  exact Nat.succ_le_succ (Nat.zero_le _)

theorem ceilDiv_low (m g : ℕ) (hm : 1 ≤ m) (hg : 0 < g) : g * (ceilDiv m g - 1) < m := by
  unfold ceilDiv
  have h1 : m + g - 1 = (m - 1) + g := by omega
  rw [h1, Nat.add_div_right _ hg]
  simp only [Nat.add_sub_cancel]
  have h2 : (m - 1) / g * g ≤ m - 1 := Nat.div_mul_le_self _ _
  generalize hQ : (m - 1) / g = Q at h2 ⊢
  have h3 : g * Q = Q * g := Nat.mul_comm _ _
  omega

theorem ceilDiv_high (m g : ℕ) (hm : 1 ≤ m) (hg : 0 < g) : m ≤ g * ceilDiv m g := by
  unfold ceilDiv
  have h1 : m + g - 1 = (m - 1) + g := by omega
  rw [h1, Nat.add_div_right _ hg]
  have h2 := Nat.div_add_mod (m - 1) g
  have h3 : (m - 1) % g < g := Nat.mod_lt _ hg
  generalize hQ : (m - 1) / g = Q at h2 ⊢
  generalize hR : (m - 1) % g = R at h2 h3
  have h4 : g * (Q + 1) = g * Q + g := by rw [Nat.mul_add, Nat.mul_one]
  omega

theorem axis_cover_core (m g r s nn v : ℕ)
    (hgr : g = 2 * r) (hr1 : 1 ≤ r) (hnn : 1 ≤ nn)
    (hlow : g * (nn - 1) < m) (hhigh : m ≤ g * nn)
    (hs : s = (m - g * (nn - 1)) / 2) (hv : v < m) :
    ∃! k, k < nn ∧ (s + k * g) - r ≤ v ∧ v < min m (s + k * g + r) := by
  have hgn : g * nn = g * (nn - 1) + g := by
    cases nn with
    | zero => omega
    | succ t => simp [Nat.mul_succ]
  have hA5 : m ≤ s + g * (nn - 1) + r := by omega
  have key : ∀ a b : ℕ, a < b →
      (s + a * g) - r ≤ v → v < min m (s + a * g + r) → (s + b * g) - r ≤ v → False := by
    intro a b hab hLa hHa hLb
    have h1 : v < s + a * g + r := lt_of_lt_of_le hHa (min_le_right _ _)
    have hmul : (a + 1) * g ≤ b * g := Nat.mul_le_mul_right g (by omega)
    have hexp : (a + 1) * g = a * g + g := by rw [Nat.add_mul, Nat.one_mul]
    omega
  have huniq : ∀ k k' : ℕ,
      (k < nn ∧ (s + k * g) - r ≤ v ∧ v < min m (s + k * g + r)) →
      (k' < nn ∧ (s + k' * g) - r ≤ v ∧ v < min m (s + k' * g + r)) → k = k' := by
    intro k k' hk hk'
    rcases Nat.lt_trichotomy k k' with hlt | heq | hgt
    · exact absurd (key k k' hlt hk.2.1 hk.2.2 hk'.2.1) (fun h => h)
    · exact heq
    · exact absurd (key k' k hgt hk'.2.1 hk'.2.2 hk.2.1) (fun h => h)
  by_cases hcase : v < s + r
  · have hP0 : 0 < nn ∧ (s + 0 * g) - r ≤ v ∧ v < min m (s + 0 * g + r) := by
      refine ⟨by omega, by omega, by omega⟩
    exact ⟨0, hP0, fun k' hk' => huniq k' 0 hk' hP0⟩
  · push_neg at hcase
    obtain ⟨q, rem, hqr, hrem⟩ : ∃ q rem, v - (s + r) = g * q + rem ∧ rem < g :=
      ⟨(v - (s + r)) / g, (v - (s + r)) % g, (Nat.div_add_mod _ _).symm,
        Nat.mod_lt _ (by omega)⟩
    have hcomm : g * q = q * g := Nat.mul_comm _ _
    have hexp : (q + 1) * g = q * g + g := by rw [Nat.add_mul, Nat.one_mul]
    have hwP : v - (s + r) < g * (nn - 1) := by omega
    have hq_lt : g * q < g * (nn - 1) := by omega
    have hqlt : q < nn - 1 := Nat.lt_of_mul_lt_mul_left hq_lt
    have hPq : (q + 1) < nn ∧ (s + (q + 1) * g) - r ≤ v ∧
        v < min m (s + (q + 1) * g + r) := by
      refine ⟨by omega, by omega, by omega⟩
    exact ⟨q + 1, hPq, fun k' hk' => huniq k' (q + 1) hk' hPq⟩

theorem gridPointsAx_count (m g : ℕ) (hm : 1 ≤ m) (hg : 0 < g) :
    ceilDiv (m - gridStart m g) g = ceilDiv m g := by
  have hnn := ceilDiv_pos m g hm hg
  have hlow := ceilDiv_low m g hm hg
  have hhigh := ceilDiv_high m g hm hg
  generalize hN : ceilDiv m g = N at hnn hlow hhigh ⊢
  have hgn : g * N = g * (N - 1) + g := by
    cases N with
    | zero => omega
    | succ t => simp [Nat.mul_succ]
  have hs : gridStart m g = (m - g * (N - 1)) / 2 := by
    unfold gridStart
    rw [hN]
  rw [hs]
  unfold ceilDiv
  generalize hP : g * (N - 1) = P at hlow hgn ⊢
  have hcm : (N - 1) * g = P := by rw [Nat.mul_comm]; exact hP
  have h1 : m - (m - P) / 2 + g - 1 = (m - (m - P) / 2 - 1) + g := by omega
  rw [h1, Nat.add_div_right _ hg]
  have hdiv : (m - (m - P) / 2 - 1) / g = N - 1 := by
    apply Nat.div_eq_of_lt_le
    · rw [hcm]
      omega
    · have hexp : ((N - 1) + 1) * g = (N - 1) * g + g := by
        rw [Nat.add_mul, Nat.one_mul]
      rw [hexp, hcm]
      omega
  rw [hdiv]
  omega

theorem gridPointsAx_mem (m g p : ℕ) (hm : 1 ≤ m) (hg : 0 < g) :
    p ∈ gridPointsAx m g ↔ ∃ k, k < ceilDiv m g ∧ p = gridStart m g + k * g := by
  unfold gridPointsAx arange
  rw [gridPointsAx_count m g hm hg]
  simp only [List.mem_map, List.mem_range]
  constructor
  · rintro ⟨k, hk, he⟩
    exact ⟨k, hk, he.symm⟩
  · rintro ⟨k, hk, he⟩
    exact ⟨k, hk, he.symm⟩

theorem axis_cells_cover (m g v : ℕ) (hm : 1 ≤ m) (hg : 2 ≤ g) (hge : g % 2 = 0)
    (hv : v < m) :
    ∃! p, p ∈ gridPointsAx m g ∧ p - g / 2 ≤ v ∧ v < min m (p + g / 2) := by
  have hgpos : 0 < g := by omega
  obtain ⟨k, hk, huni⟩ := axis_cover_core m g (g / 2) (gridStart m g) (ceilDiv m g) v
    (by omega) (by omega) (ceilDiv_pos m g hm hgpos) (ceilDiv_low m g hm hgpos)
    (ceilDiv_high m g hm hgpos) rfl hv
  refine ⟨gridStart m g + k * g,
    ⟨(gridPointsAx_mem m g _ hm hgpos).mpr ⟨k, hk.1, rfl⟩, hk.2.1, hk.2.2⟩, ?_⟩
  rintro p' ⟨hpmem, hplo, hphi⟩
  obtain ⟨k', hk', hpe⟩ := (gridPointsAx_mem m g p' hm hgpos).mp hpmem
  subst hpe
  have hkk : k' = k := huni k' ⟨hk', hplo, hphi⟩
  rw [hkk]

theorem gridList_mem (d0 d1 d2 gS gT : ℕ) (reg : Reg) :
    reg ∈ gridList d0 d1 d2 gS gT ↔
      ∃ pz ∈ gridPointsAx d0 gT, ∃ py ∈ gridPointsAx d1 gS, ∃ px ∈ gridPointsAx d2 gS,
        reg = mkReg d0 d1 d2 (gT / 2) (gS / 2) (gS / 2) pz py px := by
  unfold gridList
  simp only [List.mem_flatMap, List.mem_map]
  constructor
  · rintro ⟨pz, hz, py, hy, px, hx, he⟩
    exact ⟨pz, hz, py, hy, px, hx, he.symm⟩
  · rintro ⟨pz, hz, py, hy, px, hx, he⟩
    exact ⟨pz, hz, py, hy, px, hx, he.symm⟩

theorem inReg_mkReg (d0 d1 d2 rz ry rx pz py px z y x : ℕ) :
    inReg (mkReg d0 d1 d2 rz ry rx pz py px) z y x = true ↔
      (pz - rz ≤ z ∧ z < min d0 (pz + rz) ∧ py - ry ≤ y ∧ y < min d1 (py + ry) ∧
       px - rx ≤ x ∧ x < min d2 (px + rx)) := by
  unfold inReg mkReg
  simp [Bool.and_eq_true, decide_eq_true_eq, and_assoc]

/-- C8: for every cube shape (all dimensions ≥ 1) and every valid grid
spacing (even and ≥ 2, as guaranteed by the normalization), the grid-cell
target regions of the local method cover the cube so that every voxel
falls inside exactly one cell: the cells partition the cube, with clipped
boundary cells at the edges and no voxel left unassigned. -/
theorem gridList_partition (d0 d1 d2 gS gT z y x : ℕ)
    (h0 : 1 ≤ d0) (h1 : 1 ≤ d1) (h2 : 1 ≤ d2)
    (hgS : 2 ≤ gS) (hgSe : gS % 2 = 0) (hgT : 2 ≤ gT) (hgTe : gT % 2 = 0)
    (hz : z < d0) (hy : y < d1) (hx : x < d2) :
    ∃! reg, reg ∈ gridList d0 d1 d2 gS gT ∧ inReg reg z y x = true := by
  obtain ⟨pz, hpz, huz⟩ := axis_cells_cover d0 gT z h0 hgT hgTe hz
  obtain ⟨py, hpy, huy⟩ := axis_cells_cover d1 gS y h1 hgS hgSe hy
  obtain ⟨px, hpx, hux⟩ := axis_cells_cover d2 gS x h2 hgS hgSe hx
  refine ⟨mkReg d0 d1 d2 (gT / 2) (gS / 2) (gS / 2) pz py px,
    ⟨(gridList_mem d0 d1 d2 gS gT _).mpr ⟨pz, hpz.1, py, hpy.1, px, hpx.1, rfl⟩,
     (inReg_mkReg d0 d1 d2 (gT / 2) (gS / 2) (gS / 2) pz py px z y x).mpr
       ⟨hpz.2.1, hpz.2.2, hpy.2.1, hpy.2.2, hpx.2.1, hpx.2.2⟩⟩, ?_⟩
  rintro reg' ⟨hmem', hin'⟩
  obtain ⟨pz', hpz', py', hpy', px', hpx', he⟩ := (gridList_mem d0 d1 d2 gS gT reg').mp hmem'
  subst he
  obtain ⟨hc1, hc2, hc3, hc4, hc5, hc6⟩ :=
    (inReg_mkReg d0 d1 d2 (gT / 2) (gS / 2) (gS / 2) pz' py' px' z y x).mp hin'
  have ez : pz' = pz := huz pz' ⟨hpz', hc1, hc2⟩
  have ey : py' = py := huy py' ⟨hpy', hc3, hc4⟩
  have ex : px' = px := hux px' ⟨hpx', hc5, hc6⟩
  rw [ez, ey, ex]

/-- Witness for C8: on a 3×4×5 cube with spatial and spectral grid size 2,
voxel (0, 1, 2) lies in exactly one grid cell. -/
theorem gridList_partition_witness :
    ∃! reg, reg ∈ gridList 3 4 5 2 2 ∧ inReg reg 0 1 2 = true :=
  gridList_partition 3 4 5 2 2 0 1 2 (by decide) (by decide) (by decide) (by decide)
    (by decide) (by decide) (by decide) (by decide) (by decide) (by decide)
